import Mathlib

/-!
Verification of the home-expenses-splitter core (`src/main.py`, `src/person.py`,
`src/expense.py`).

The Python code is shallowly embedded: mutable state (`ExpenseManager.persons`)
becomes explicit list passing, Python `float` currency amounts become exact
rationals (`ℚ`, the spec prescribes unrounded intermediate arithmetic), Python
dicts become insertion-ordered association lists, and `raise ValueError`
becomes `Except.error`.  The random `uuid` field of `Expense` is omitted: it is
generated, never read, by any of the modelled operations.
-/

/-- A calendar date, as much of `datetime.date` as the code consumes. -/
structure Date where
  year : Nat
  month : Nat
  day : Nat
deriving DecidableEq, Repr

/-- The uppercase three-letter month abbreviation produced by
`strftime("%b").upper()` for months 1..12. -/
def monthAbbrevUpper : Nat → String
  | 1 => "JAN"
  | 2 => "FEB"
  | 3 => "MAR"
  | 4 => "APR"
  | 5 => "MAY"
  | 6 => "JUN"
  | 7 => "JUL"
  | 8 => "AUG"
  | 9 => "SEP"
  | 10 => "OCT"
  | 11 => "NOV"
  | 12 => "DEC"
  | _ => "???"

/-- `expense.expense_date.strftime("%b %Y").upper()` (main.py line 39). -/
def monthKey (d : Date) : String :=
  monthAbbrevUpper d.month ++ " " ++ toString d.year

/-- `Expense` from expense.py (the random `id` field is omitted, see above). -/
structure Expense where
  invoice_id : String
  descr : String
  value : ℚ
  expense_date : Date
deriving DecidableEq, Repr

/-- `Person` from person.py. -/
structure Person where
  name : String
  pays_for_two : Bool
  expenses : List Expense
deriving DecidableEq, Repr

/-- `Person.add_expense` (person.py lines 10-11): append to the expense list. -/
def Person.addExpense (p : Person) (e : Expense) : Person :=
  { p with expenses := p.expenses ++ [e] }

/-- `ExpenseManager.add_person` (main.py lines 23-27).  The pair returns the
raised-or-ok outcome together with the resulting participant collection, so
that "state unchanged on error" is expressible. -/
def add_person (persons : List Person) (name : String) (pays_for_two : Bool) :
    Except String Unit × List Person :=
  if persons.any (fun person => person.name = name) then
    (Except.error ("Person " ++ name ++ " already exists."), persons)
  else
    (Except.ok (), persons ++ [⟨name, pays_for_two, []⟩])

/-- `ExpenseManager.add_expense` (main.py lines 29-33): `next(...)` finds the
first person with the given name and mutates it; no match means no change. -/
def add_expense (persons : List Person) (person_name invoice_id descr : String)
    (value : ℚ) (expense_date : Date) : List Person :=
  match persons with
  | [] => []
  | p :: ps =>
    if p.name = person_name then
      p.addExpense ⟨invoice_id, descr, value, expense_date⟩ :: ps
    else
      p :: add_expense ps person_name invoice_id descr value expense_date

/-- `ExpenseManager.delete_person` (main.py lines 111-112). -/
def delete_person (persons : List Person) (name : String) : List Person :=
  persons.filter (fun person => person.name ≠ name)

/-- One `expenses_by_month[month].append(expense)` step, including the
`if month not in expenses_by_month` dict-insertion (main.py lines 39-42).
The dict is an insertion-ordered association list, as in Python. -/
def addToBucket (m : List (String × List Expense)) (k : String) (e : Expense) :
    List (String × List Expense) :=
  if m.any (fun kv => kv.1 = k) then
    m.map (fun kv => if kv.1 = k then (kv.1, kv.2 ++ [e]) else kv)
  else
    m ++ [(k, [e])]

/-- `ExpenseManager.get_expenses_by_month` (main.py lines 35-43): iterate
persons in order, each person's expenses in order, bucketing by month key. -/
def get_expenses_by_month (persons : List Person) : List (String × List Expense) :=
  persons.foldl
    (fun m person =>
      person.expenses.foldl (fun m e => addToBucket m (monthKey e.expense_date) e) m)
    []

/-- Reading a bucket out of the association-list dict (first matching key;
an absent key reads as the empty bucket). -/
def bucketGet (m : List (String × List Expense)) (k : String) : List Expense :=
  match m with
  | [] => []
  | kv :: rest => if kv.1 = k then kv.2 else bucketGet rest k

/-- `2 if person.pays_for_two else 1` (main.py lines 55 and 62). -/
def personWeight (person : Person) : ℚ :=
  if person.pays_for_two then 2 else 1

/-- The body of the month loop of `calculate_totals` (main.py lines 53-65):
the ordered `(name, total_paid, should_pay, difference)` rows for one month. -/
def monthTotals (persons : List Person) (month : String) (expenses : List Expense) :
    List (String × ℚ × ℚ × ℚ) :=
  let total_expenses := (expenses.map (fun e => e.value)).sum
  let num_persons := (persons.map personWeight).sum
  let split_amount := total_expenses / num_persons
  persons.map (fun person =>
    let total_paid :=
      ((person.expenses.filter (fun e => monthKey e.expense_date = month)).map
        (fun e => e.value)).sum
    let should_pay := split_amount * personWeight person
    (person.name, total_paid, should_pay, total_paid - should_pay))

/-- `balances[person.name] = difference` (main.py line 65): the balance map of
one month, keyed by name in participant iteration order. -/
def monthBalances (persons : List Person) (month : String) (expenses : List Expense) :
    List (String × ℚ) :=
  (monthTotals persons month expenses).map (fun t => (t.1, t.2.2.2))

/-- `ExpenseManager.calculate_totals` (main.py lines 45-70). -/
def calculate_totals (persons : List Person) :
    Except String
      (List (String × List (String × ℚ × ℚ × ℚ)) × List (String × List (String × ℚ))) :=
  if persons.isEmpty then
    Except.error "No persons available to calculate totals."
  else
    let ebm := get_expenses_by_month persons
    Except.ok
      (ebm.map (fun me => (me.1, monthTotals persons me.1 me.2)),
       ebm.map (fun me => (me.1, monthBalances persons me.1 me.2)))

/-- Stable insertion into a list sorted descending by the second component:
an element goes after all existing elements with a greater-or-equal key.
Together with `sortDesc` this models Python's stable
`list.sort(key=lambda x: x[1], reverse=True)` (main.py lines 79-80). -/
def insertDesc (x : String × ℚ) : List (String × ℚ) → List (String × ℚ)
  | [] => [x]
  | y :: ys => if y.2 ≤ x.2 then x :: y :: ys else y :: insertDesc x ys

/-- Stable descending sort by the second component (see `insertDesc`). -/
def sortDesc : List (String × ℚ) → List (String × ℚ)
  | [] => []
  | x :: xs => insertDesc x (sortDesc xs)

/-- The `while creditors and debtors` loop of `calculate_settlements`
(main.py lines 82-92): pop the front of both lists, emit
`(debtor, creditor, min)`, and re-insert the partially matched party at the
front of its list. -/
def settleLoop : List (String × ℚ) → List (String × ℚ) → List (String × String × ℚ)
  | (cn, cb) :: cs, (dn, db) :: ds =>
    let amount := min cb db
    if db < cb then
      (dn, cn, amount) :: settleLoop ((cn, cb - amount) :: cs) ds
    else if cb < db then
      (dn, cn, amount) :: settleLoop cs ((dn, db - amount) :: ds)
    else
      (dn, cn, amount) :: settleLoop cs ds
  | _, [] => []
  | [], _ => []
termination_by cs ds => cs.length + ds.length
decreasing_by all_goals simp_arith

/-- One iteration of the `while` loop (main.py lines 82-92) as a step
function: `none` when the loop guard fails (either list empty), otherwise the
emitted settlement and the next `(creditors, debtors)` state. -/
def settleIter (creditors debtors : List (String × ℚ)) :
    Option ((String × String × ℚ) × List (String × ℚ) × List (String × ℚ)) :=
  match creditors, debtors with
  | (cn, cb) :: cs, (dn, db) :: ds =>
    let amount := min cb db
    if db < cb then
      some ((dn, cn, amount), (cn, cb - amount) :: cs, ds)
    else if cb < db then
      some ((dn, cn, amount), cs, (dn, db - amount) :: ds)
    else
      some ((dn, cn, amount), cs, ds)
  | _, [] => none
  | [], _ => none

/-- The per-month body of `ExpenseManager.calculate_settlements`
(main.py lines 75-92): partition the balance map into creditors and debtors
(debtors as positive magnitudes), sort both descending, run the greedy loop. -/
def calculate_settlements_month (balances : List (String × ℚ)) :
    List (String × String × ℚ) :=
  let creditors := sortDesc (balances.filter (fun nb => 0 < nb.2))
  let debtors :=
    sortDesc ((balances.filter (fun nb => nb.2 < 0)).map (fun nb => (nb.1, -nb.2)))
  settleLoop creditors debtors

/-- `ExpenseManager.calculate_settlements` (main.py lines 72-96). -/
def calculate_settlements (balances_by_month : List (String × List (String × ℚ))) :
    List (String × List (String × String × ℚ)) :=
  balances_by_month.map (fun mb => (mb.1, calculate_settlements_month mb.2))

/-- Total amount the name pays as a debtor across a settlement list. -/
def paidBy (settlements : List (String × String × ℚ)) (n : String) : ℚ :=
  ((settlements.filter (fun s => s.1 = n)).map (fun s => s.2.2)).sum

/-- Total amount the name receives as a creditor across a settlement list. -/
def receivedBy (settlements : List (String × String × ℚ)) (n : String) : ℚ :=
  ((settlements.filter (fun s => s.2.1 = n)).map (fun s => s.2.2)).sum

/-- Sum of the amounts attached to a name in a creditor/debtor list. -/
def amtOf (l : List (String × ℚ)) (n : String) : ℚ :=
  ((l.filter (fun e => e.1 = n)).map (fun e => e.2)).sum

/-! ### Basic lemmas about the sort and the accounting helpers -/

theorem insertDesc_perm (x : String × ℚ) (l : List (String × ℚ)) :
    (insertDesc x l).Perm (x :: l) := by
  induction l with
  | nil => simp [insertDesc]
  | cons y ys ih =>
    by_cases h : y.2 ≤ x.2
    · simp [insertDesc, h]
    · simpa [insertDesc, h] using ((ih.cons y).trans (List.Perm.swap x y ys))

theorem sortDesc_perm (l : List (String × ℚ)) : (sortDesc l).Perm l := by
  induction l with
  | nil => simp [sortDesc]
  | cons x xs ih => exact (insertDesc_perm x (sortDesc xs)).trans (ih.cons x)

theorem amtOf_perm {l l' : List (String × ℚ)} (h : l.Perm l') (n : String) :
    amtOf l n = amtOf l' n :=
  ((h.filter _).map _).sum_eq

theorem amtOf_nil (n : String) : amtOf [] n = 0 := rfl

theorem amtOf_cons (m : String) (b : ℚ) (l : List (String × ℚ)) (n : String) :
    amtOf ((m, b) :: l) n = (if m = n then b else 0) + amtOf l n := by
  by_cases h : m = n <;> simp [amtOf, h]

theorem paidBy_nil (n : String) : paidBy [] n = 0 := rfl

theorem receivedBy_nil (n : String) : receivedBy [] n = 0 := rfl

theorem paidBy_cons (d c : String) (a : ℚ) (S : List (String × String × ℚ)) (n : String) :
    paidBy ((d, c, a) :: S) n = (if d = n then a else 0) + paidBy S n := by
  by_cases h : d = n <;> simp [paidBy, h]

theorem receivedBy_cons (d c : String) (a : ℚ) (S : List (String × String × ℚ)) (n : String) :
    receivedBy ((d, c, a) :: S) n = (if c = n then a else 0) + receivedBy S n := by
  by_cases h : c = n <;> simp [receivedBy, h]

theorem snd_sum_nonneg (l : List (String × ℚ)) (h : ∀ e ∈ l, 0 < e.2) :
    0 ≤ (l.map (fun e => e.2)).sum :=
  List.sum_nonneg (by
    intro x hx
    rcases List.mem_map.1 hx with ⟨e, he, rfl⟩
    exact le_of_lt (h e he))

theorem eq_nil_of_pos_of_sum_eq_zero (l : List (String × ℚ))
    (hpos : ∀ e ∈ l, 0 < e.2) (hsum : (l.map (fun e => e.2)).sum = 0) : l = [] := by
  cases l with
  | nil => rfl
  | cons e l =>
    exfalso
    have h1 : 0 < e.2 := hpos e (List.mem_cons_self e l)
    have h2 : 0 ≤ (l.map (fun e => e.2)).sum :=
      snd_sum_nonneg l (fun x hx => hpos x (List.mem_cons_of_mem e hx))
    simp only [List.map_cons, List.sum_cons] at hsum
    linarith

theorem sum_split_pos_neg (l : List (String × ℚ)) :
    (l.map (fun e => e.2)).sum
      = ((l.filter (fun e => 0 < e.2)).map (fun e => e.2)).sum
        + ((l.filter (fun e => e.2 < 0)).map (fun e => e.2)).sum := by
  induction l with
  | nil => simp
  | cons e l ih =>
    rcases lt_trichotomy e.2 0 with h | h | h
    · rw [List.filter_cons_of_neg (by simp only [decide_eq_true_eq]; linarith),
        List.filter_cons_of_pos (by simp only [decide_eq_true_eq]; exact h),
        List.map_cons, List.sum_cons, List.map_cons, List.sum_cons, ih]
      ring
    · rw [List.filter_cons_of_neg (by simp only [decide_eq_true_eq]; linarith),
        List.filter_cons_of_neg (by simp only [decide_eq_true_eq]; linarith),
        List.map_cons, List.sum_cons, ih, h]
      ring
    · rw [List.filter_cons_of_pos (by simp only [decide_eq_true_eq]; exact h),
        List.filter_cons_of_neg (by simp only [decide_eq_true_eq]; linarith),
        List.map_cons, List.sum_cons, List.map_cons, List.sum_cons, ih]
      ring

theorem sum_snd_map_neg (l : List (String × ℚ)) :
    ((l.map (fun nb => (nb.1, -nb.2))).map (fun e => e.2)).sum
      = -((l.map (fun e => e.2)).sum) := by
  rw [List.map_map]
  show (l.map (fun nb => -nb.2)).sum = -((l.map (fun e => e.2)).sum)
  induction l with
  | nil => simp
  | cons e l ih =>
    simp only [List.map_cons, List.sum_cons, ih]
    ring

theorem amtOf_map_neg (l : List (String × ℚ)) (n : String) :
    amtOf (l.map (fun nb => (nb.1, -nb.2))) n = -amtOf l n := by
  induction l with
  | nil => simp [amtOf]
  | cons e l ih =>
    rcases e with ⟨m, b⟩
    by_cases h : m = n <;>
      simp only [List.map_cons, amtOf_cons, h, if_true, if_false, ih] <;> ring

/-! ### The greedy settlement loop -/

theorem settleLoop_cons_cons (cn dn : String) (cb db : ℚ) (cs ds : List (String × ℚ)) :
    settleLoop ((cn, cb) :: cs) ((dn, db) :: ds)
      = if db < cb then (dn, cn, min cb db) :: settleLoop ((cn, cb - min cb db) :: cs) ds
        else if cb < db then (dn, cn, min cb db) :: settleLoop cs ((dn, db - min cb db) :: ds)
        else (dn, cn, min cb db) :: settleLoop cs ds := by
  rw [settleLoop]

theorem settleLoop_nil_right (cs : List (String × ℚ)) : settleLoop cs [] = [] := by
  cases cs <;> rw [settleLoop]

theorem settleLoop_nil_left (ds : List (String × ℚ)) : settleLoop [] ds = [] := by
  cases ds with
  | nil => rw [settleLoop]
  | cons d ds => rw [settleLoop]; simp

theorem settleLoop_settles : ∀ (cs ds : List (String × ℚ)),
    (∀ e ∈ cs, 0 < e.2) → (∀ e ∈ ds, 0 < e.2) →
    (cs.map (fun e => e.2)).sum = (ds.map (fun e => e.2)).sum →
    ∀ n, paidBy (settleLoop cs ds) n - receivedBy (settleLoop cs ds) n
      = amtOf ds n - amtOf cs n := by
  intro cs ds
  induction cs, ds using settleLoop.induct with
  | case1 cn cb cs dn db ds amount hlt ih =>
    intro hc hd hsum n
    have hmin : min cb db = db := min_eq_right (le_of_lt hlt)
    have hamount : amount = db := hmin
    rw [hamount] at ih
    rw [settleLoop_cons_cons, if_pos hlt, hmin, paidBy_cons, receivedBy_cons]
    have hc' : ∀ e ∈ (cn, cb - db) :: cs, 0 < e.2 := by
      intro e he
      rcases List.mem_cons.1 he with rfl | he
      · simpa using sub_pos.2 hlt
      · exact hc e (List.mem_cons_of_mem _ he)
    have hd' : ∀ e ∈ ds, 0 < e.2 := fun e he => hd e (List.mem_cons_of_mem _ he)
    have hsum' : (((cn, cb - db) :: cs).map (fun e => e.2)).sum
        = (ds.map (fun e => e.2)).sum := by
      simp only [List.map_cons, List.sum_cons] at hsum ⊢
      linarith
    have ihn := ih hc' hd' hsum' n
    rw [amtOf_cons, amtOf_cons]
    rw [amtOf_cons] at ihn
    by_cases h1 : dn = n <;> by_cases h2 : cn = n <;>
      simp only [h1, h2, if_true, if_false] at ihn ⊢ <;> linarith
  | case2 cn cb cs dn db ds amount hnlt hlt ih =>
    intro hc hd hsum n
    have hmin : min cb db = cb := min_eq_left (le_of_lt hlt)
    have hamount : amount = cb := hmin
    rw [hamount] at ih
    rw [settleLoop_cons_cons, if_neg hnlt, if_pos hlt, hmin, paidBy_cons, receivedBy_cons]
    have hc' : ∀ e ∈ cs, 0 < e.2 := fun e he => hc e (List.mem_cons_of_mem _ he)
    have hd' : ∀ e ∈ (dn, db - cb) :: ds, 0 < e.2 := by
      intro e he
      rcases List.mem_cons.1 he with rfl | he
      · simpa using sub_pos.2 hlt
      · exact hd e (List.mem_cons_of_mem _ he)
    have hsum' : (cs.map (fun e => e.2)).sum
        = (((dn, db - cb) :: ds).map (fun e => e.2)).sum := by
      simp only [List.map_cons, List.sum_cons] at hsum ⊢
      linarith
    have ihn := ih hc' hd' hsum' n
    rw [amtOf_cons, amtOf_cons]
    rw [amtOf_cons] at ihn
    by_cases h1 : dn = n <;> by_cases h2 : cn = n <;>
      simp only [h1, h2, if_true, if_false] at ihn ⊢ <;> linarith
  | case3 cn cb cs dn db ds hnlt1 hnlt2 ih =>
    intro hc hd hsum n
    have heq : cb = db := le_antisymm (not_lt.1 hnlt1) (not_lt.1 hnlt2)
    have hmin : min cb db = db := by rw [heq]; exact min_self db
    rw [settleLoop_cons_cons, if_neg hnlt1, if_neg hnlt2, hmin, paidBy_cons, receivedBy_cons]
    have hc' : ∀ e ∈ cs, 0 < e.2 := fun e he => hc e (List.mem_cons_of_mem _ he)
    have hd' : ∀ e ∈ ds, 0 < e.2 := fun e he => hd e (List.mem_cons_of_mem _ he)
    have hsum' : (cs.map (fun e => e.2)).sum = (ds.map (fun e => e.2)).sum := by
      simp only [List.map_cons, List.sum_cons] at hsum
      linarith
    have ihn := ih hc' hd' hsum' n
    rw [amtOf_cons, amtOf_cons]
    by_cases h1 : dn = n <;> by_cases h2 : cn = n <;>
      simp only [h1, h2, if_true, if_false, heq] at ihn ⊢ <;> linarith
  | case4 cs =>
    intro hc hd hsum n
    have : cs = [] := by
      apply eq_nil_of_pos_of_sum_eq_zero cs hc
      simpa using hsum
    subst this
    simp [settleLoop_nil_right, paidBy_nil, receivedBy_nil, amtOf_nil]
  | case5 ds hne =>
    intro hc hd hsum n
    have : ds = [] := by
      apply eq_nil_of_pos_of_sum_eq_zero ds hd
      simpa using hsum.symm
    subst this
    simp [settleLoop_nil_left, paidBy_nil, receivedBy_nil, amtOf_nil]

theorem settleLoop_pos : ∀ (cs ds : List (String × ℚ)),
    (∀ e ∈ cs, 0 < e.2) → (∀ e ∈ ds, 0 < e.2) →
    ∀ s ∈ settleLoop cs ds, 0 < s.2.2 := by
  intro cs ds
  induction cs, ds using settleLoop.induct with
  | case1 cn cb cs dn db ds amount hlt ih =>
    intro hc hd s hs
    have hmin : min cb db = db := min_eq_right (le_of_lt hlt)
    have hamount : amount = db := hmin
    rw [hamount] at ih
    rw [settleLoop_cons_cons, if_pos hlt, hmin] at hs
    rcases List.mem_cons.1 hs with rfl | hs
    · exact hd (dn, db) (List.mem_cons_self _ _)
    · refine ih ?_ (fun e he => hd e (List.mem_cons_of_mem _ he)) s hs
      intro e he
      rcases List.mem_cons.1 he with rfl | he
      · simpa using sub_pos.2 hlt
      · exact hc e (List.mem_cons_of_mem _ he)
  | case2 cn cb cs dn db ds amount hnlt hlt ih =>
    intro hc hd s hs
    have hmin : min cb db = cb := min_eq_left (le_of_lt hlt)
    have hamount : amount = cb := hmin
    rw [hamount] at ih
    rw [settleLoop_cons_cons, if_neg hnlt, if_pos hlt, hmin] at hs
    rcases List.mem_cons.1 hs with rfl | hs
    · exact hc (cn, cb) (List.mem_cons_self _ _)
    · refine ih (fun e he => hc e (List.mem_cons_of_mem _ he)) ?_ s hs
      intro e he
      rcases List.mem_cons.1 he with rfl | he
      · simpa using sub_pos.2 hlt
      · exact hd e (List.mem_cons_of_mem _ he)
  | case3 cn cb cs dn db ds hnlt1 hnlt2 ih =>
    intro hc hd s hs
    have heq : cb = db := le_antisymm (not_lt.1 hnlt1) (not_lt.1 hnlt2)
    have hmin : min cb db = db := by rw [heq]; exact min_self db
    rw [settleLoop_cons_cons, if_neg hnlt1, if_neg hnlt2, hmin] at hs
    rcases List.mem_cons.1 hs with rfl | hs
    · exact hd (dn, db) (List.mem_cons_self _ _)
    · exact ih (fun e he => hc e (List.mem_cons_of_mem _ he))
        (fun e he => hd e (List.mem_cons_of_mem _ he)) s hs
  | case4 cs =>
    intro hc hd s hs
    rw [settleLoop_nil_right] at hs
    exact absurd hs (List.not_mem_nil s)
  | case5 ds hne =>
    intro hc hd s hs
    rw [settleLoop_nil_left] at hs
    exact absurd hs (List.not_mem_nil s)

theorem settleLoop_names : ∀ (cs ds : List (String × ℚ)),
    ∀ s ∈ settleLoop cs ds, s.1 ∈ ds.map Prod.fst ∧ s.2.1 ∈ cs.map Prod.fst := by
  intro cs ds
  induction cs, ds using settleLoop.induct with
  | case1 cn cb cs dn db ds amount hlt ih =>
    intro s hs
    rw [settleLoop_cons_cons, if_pos hlt] at hs
    rcases List.mem_cons.1 hs with rfl | hs
    · simp
    · rcases ih s hs with ⟨h1, h2⟩
      simp only [List.map_cons] at h2 ⊢
      exact ⟨List.mem_cons_of_mem _ h1, h2⟩
  | case2 cn cb cs dn db ds amount hnlt hlt ih =>
    intro s hs
    rw [settleLoop_cons_cons, if_neg hnlt, if_pos hlt] at hs
    rcases List.mem_cons.1 hs with rfl | hs
    · simp
    · rcases ih s hs with ⟨h1, h2⟩
      simp only [List.map_cons] at h1 ⊢
      exact ⟨h1, List.mem_cons_of_mem _ h2⟩
  | case3 cn cb cs dn db ds hnlt1 hnlt2 ih =>
    intro s hs
    rw [settleLoop_cons_cons, if_neg hnlt1, if_neg hnlt2] at hs
    rcases List.mem_cons.1 hs with rfl | hs
    · simp
    · rcases ih s hs with ⟨h1, h2⟩
      exact ⟨List.mem_cons_of_mem _ h1, List.mem_cons_of_mem _ h2⟩
  | case4 cs =>
    intro s hs
    rw [settleLoop_nil_right] at hs
    exact absurd hs (List.not_mem_nil s)
  | case5 ds hne =>
    intro s hs
    rw [settleLoop_nil_left] at hs
    exact absurd hs (List.not_mem_nil s)

theorem settleLoop_length : ∀ (cs ds : List (String × ℚ)),
    (∀ e ∈ cs, 0 < e.2) → (∀ e ∈ ds, 0 < e.2) →
    (cs.map (fun e => e.2)).sum = (ds.map (fun e => e.2)).sum →
    cs ≠ [] → ds ≠ [] →
    (settleLoop cs ds).length + 1 ≤ cs.length + ds.length := by
  intro cs ds
  induction cs, ds using settleLoop.induct with
  | case1 cn cb cs dn db ds amount hlt ih =>
    intro hc hd hsum hcne hdne
    have hmin : min cb db = db := min_eq_right (le_of_lt hlt)
    have hamount : amount = db := hmin
    rw [hamount] at ih
    rw [settleLoop_cons_cons, if_pos hlt, hmin]
    have hc' : ∀ e ∈ (cn, cb - db) :: cs, 0 < e.2 := by
      intro e he
      rcases List.mem_cons.1 he with rfl | he
      · simpa using sub_pos.2 hlt
      · exact hc e (List.mem_cons_of_mem _ he)
    have hd' : ∀ e ∈ ds, 0 < e.2 := fun e he => hd e (List.mem_cons_of_mem _ he)
    have hsum' : (((cn, cb - db) :: cs).map (fun e => e.2)).sum
        = (ds.map (fun e => e.2)).sum := by
      simp only [List.map_cons, List.sum_cons] at hsum ⊢
      linarith
    have hdsne : ds ≠ [] := by
      intro h
      subst h
      have : 0 < (((cn, cb - db) :: cs).map (fun e => e.2)).sum :=
        List.sum_pos _ (by
          intro x hx
          rcases List.mem_map.1 hx with ⟨e, he, rfl⟩
          exact hc' e he) (by simp)
      rw [hsum'] at this
      simp at this
    have := ih hc' hd' hsum' (by simp) hdsne
    simp only [List.length_cons] at this ⊢
    omega
  | case2 cn cb cs dn db ds amount hnlt hlt ih =>
    intro hc hd hsum hcne hdne
    have hmin : min cb db = cb := min_eq_left (le_of_lt hlt)
    have hamount : amount = cb := hmin
    rw [hamount] at ih
    rw [settleLoop_cons_cons, if_neg hnlt, if_pos hlt, hmin]
    have hc' : ∀ e ∈ cs, 0 < e.2 := fun e he => hc e (List.mem_cons_of_mem _ he)
    have hd' : ∀ e ∈ (dn, db - cb) :: ds, 0 < e.2 := by
      intro e he
      rcases List.mem_cons.1 he with rfl | he
      · simpa using sub_pos.2 hlt
      · exact hd e (List.mem_cons_of_mem _ he)
    have hsum' : (cs.map (fun e => e.2)).sum
        = (((dn, db - cb) :: ds).map (fun e => e.2)).sum := by
      simp only [List.map_cons, List.sum_cons] at hsum ⊢
      linarith
    have hcsne : cs ≠ [] := by
      intro h
      subst h
      have : 0 < (((dn, db - cb) :: ds).map (fun e => e.2)).sum :=
        List.sum_pos _ (by
          intro x hx
          rcases List.mem_map.1 hx with ⟨e, he, rfl⟩
          exact hd' e he) (by simp)
      rw [← hsum'] at this
      simp at this
    have := ih hc' hd' hsum' hcsne (by simp)
    simp only [List.length_cons] at this ⊢
    omega
  | case3 cn cb cs dn db ds hnlt1 hnlt2 ih =>
    intro hc hd hsum hcne hdne
    have heq : cb = db := le_antisymm (not_lt.1 hnlt1) (not_lt.1 hnlt2)
    have hmin : min cb db = db := by rw [heq]; exact min_self db
    rw [settleLoop_cons_cons, if_neg hnlt1, if_neg hnlt2, hmin]
    have hc' : ∀ e ∈ cs, 0 < e.2 := fun e he => hc e (List.mem_cons_of_mem _ he)
    have hd' : ∀ e ∈ ds, 0 < e.2 := fun e he => hd e (List.mem_cons_of_mem _ he)
    have hsum' : (cs.map (fun e => e.2)).sum = (ds.map (fun e => e.2)).sum := by
      simp only [List.map_cons, List.sum_cons] at hsum
      linarith
    by_cases hcs : cs = []
    · have hds : ds = [] := by
        apply eq_nil_of_pos_of_sum_eq_zero ds hd'
        rw [← hsum', hcs]
        simp
      subst hcs; subst hds
      simp [settleLoop_nil_right]
    · have hds : ds ≠ [] := by
        intro h
        subst h
        exact hcs (eq_nil_of_pos_of_sum_eq_zero cs hc' (by simpa using hsum'))
      have := ih hc' hd' hsum' hcs hds
      simp only [List.length_cons] at this ⊢
      omega
  | case4 cs =>
    intro hc hd hsum hcne hdne
    exact absurd rfl hdne
  | case5 ds hne =>
    intro hc hd hsum hcne hdne
    exact absurd rfl hcne

/-! ### Settlement claims C1, C2, C3, C9 -/

theorem eq_of_nodup_keys {l : List (String × ℚ)} (hnd : (l.map Prod.fst).Nodup)
    {a b : String × ℚ} (ha : a ∈ l) (hb : b ∈ l) (hab : a.1 = b.1) : a = b := by
  induction l with
  | nil => exact absurd ha (List.not_mem_nil a)
  | cons x l ih =>
    simp only [List.map_cons, List.nodup_cons] at hnd
    rcases List.mem_cons.1 ha with rfl | ha' <;> rcases List.mem_cons.1 hb with rfl | hb'
    · rfl
    · exact absurd (hab ▸ List.mem_map_of_mem Prod.fst hb') hnd.1
    · exact absurd (hab ▸ List.mem_map_of_mem Prod.fst ha') hnd.1
    · exact ih hnd.2 ha' hb'

theorem amtOf_eq_zero {l : List (String × ℚ)} {n : String}
    (h : n ∉ l.map Prod.fst) : amtOf l n = 0 := by
  induction l with
  | nil => rfl
  | cons x l ih =>
    simp only [List.map_cons, List.mem_cons, not_or] at h
    rcases x with ⟨m, b⟩
    rw [amtOf_cons, if_neg (Ne.symm h.1), ih h.2, add_zero]

theorem amtOf_eq_of_mem {l : List (String × ℚ)} (hnd : (l.map Prod.fst).Nodup)
    {nb : String × ℚ} (hmem : nb ∈ l) : amtOf l nb.1 = nb.2 := by
  induction l with
  | nil => exact absurd hmem (List.not_mem_nil nb)
  | cons x l ih =>
    simp only [List.map_cons, List.nodup_cons] at hnd
    rcases x with ⟨m, b⟩
    rcases List.mem_cons.1 hmem with rfl | hmem'
    · rw [amtOf_cons, if_pos rfl, amtOf_eq_zero hnd.1, add_zero]
    · have hmm : nb.1 ∈ List.map Prod.fst l := List.mem_map_of_mem Prod.fst hmem'
      have hne : m ≠ nb.1 := by
        intro h
        rw [← h] at hmm
        exact hnd.1 hmm
      rw [amtOf_cons, if_neg hne, ih hnd.2 hmem', zero_add]

/-- `amtOf` of the creditor partition: the positive part of the balance. -/
theorem amtOf_creditors {balances : List (String × ℚ)}
    (hnd : (balances.map Prod.fst).Nodup) {nb : String × ℚ} (hmem : nb ∈ balances) :
    amtOf (balances.filter (fun e => 0 < e.2)) nb.1
      = if 0 < nb.2 then nb.2 else 0 := by
  by_cases h : 0 < nb.2
  · rw [if_pos h]
    have hnd' : ((balances.filter (fun e => 0 < e.2)).map Prod.fst).Nodup :=
      ((List.filter_sublist balances).map Prod.fst).nodup hnd
    exact amtOf_eq_of_mem hnd' (List.mem_filter.2 ⟨hmem, by simpa using h⟩)
  · rw [if_neg h]
    apply amtOf_eq_zero
    intro hin
    rcases List.mem_map.1 hin with ⟨e, he, hfst⟩
    rcases List.mem_filter.1 he with ⟨he', hepos⟩
    have := eq_of_nodup_keys hnd he' hmem hfst
    subst this
    exact h (by simpa using hepos)

/-- `amtOf` of the debtor partition: the magnitude of the negative part. -/
theorem amtOf_debtors {balances : List (String × ℚ)}
    (hnd : (balances.map Prod.fst).Nodup) {nb : String × ℚ} (hmem : nb ∈ balances) :
    amtOf ((balances.filter (fun e => e.2 < 0)).map (fun nb => (nb.1, -nb.2))) nb.1
      = if nb.2 < 0 then -nb.2 else 0 := by
  rw [amtOf_map_neg]
  by_cases h : nb.2 < 0
  · rw [if_pos h]
    have hnd' : ((balances.filter (fun e => e.2 < 0)).map Prod.fst).Nodup :=
      ((List.filter_sublist balances).map Prod.fst).nodup hnd
    rw [amtOf_eq_of_mem hnd' (List.mem_filter.2 ⟨hmem, by simpa using h⟩)]
  · rw [if_neg h]
    rw [amtOf_eq_zero, neg_zero]
    intro hin
    rcases List.mem_map.1 hin with ⟨e, he, hfst⟩
    rcases List.mem_filter.1 he with ⟨he', heneg⟩
    have := eq_of_nodup_keys hnd he' hmem hfst
    subst this
    exact h (by simpa using heneg)

theorem creditors_debtors_sum (balances : List (String × ℚ))
    (hsum : (balances.map (fun e => e.2)).sum = 0) :
    ((balances.filter (fun e => 0 < e.2)).map (fun e => e.2)).sum
      = (((balances.filter (fun e => e.2 < 0)).map (fun nb => (nb.1, -nb.2))).map
          (fun e => e.2)).sum := by
  rw [sum_snd_map_neg]
  have := sum_split_pos_neg balances
  linarith

theorem creditors_pos (balances : List (String × ℚ)) :
    ∀ e ∈ sortDesc (balances.filter (fun e => 0 < e.2)), 0 < e.2 := by
  intro e he
  have := (sortDesc_perm _).mem_iff.1 he
  simpa using (List.mem_filter.1 this).2

theorem debtors_pos (balances : List (String × ℚ)) :
    ∀ e ∈ sortDesc ((balances.filter (fun e => e.2 < 0)).map (fun nb => (nb.1, -nb.2))),
      0 < e.2 := by
  intro e he
  have := (sortDesc_perm _).mem_iff.1 he
  rcases List.mem_map.1 this with ⟨f, hf, rfl⟩
  have := (List.mem_filter.1 hf).2
  simp only [decide_eq_true_eq] at this
  simpa using this

theorem sorted_sums_eq (balances : List (String × ℚ))
    (hsum : (balances.map (fun e => e.2)).sum = 0) :
    ((sortDesc (balances.filter (fun e => 0 < e.2))).map (fun e => e.2)).sum
      = ((sortDesc ((balances.filter (fun e => e.2 < 0)).map
          (fun nb => (nb.1, -nb.2)))).map (fun e => e.2)).sum := by
  rw [((sortDesc_perm _).map _).sum_eq, ((sortDesc_perm _).map _).sum_eq]
  exact creditors_debtors_sum balances hsum

/-- **C1**: for a non-empty per-month balance map with distinct names whose
values sum to zero, applying every transfer emitted by `calculate_settlements`
for that month (debtor pays `amount`, creditor receives `amount`) brings every
participant's balance to exactly zero. -/
theorem C1_settlements_zero_all_balances (bbm : List (String × List (String × ℚ)))
    (month : String) (balances : List (String × ℚ))
    (hmem : (month, balances) ∈ bbm)
    (hnd : (balances.map Prod.fst).Nodup)
    (_hne : balances ≠ [])
    (hsum : (balances.map (fun e => e.2)).sum = 0) :
    (month, calculate_settlements_month balances) ∈ calculate_settlements bbm ∧
    ∀ nb ∈ balances,
      nb.2 + paidBy (calculate_settlements_month balances) nb.1
        - receivedBy (calculate_settlements_month balances) nb.1 = 0 := by
  constructor
  · exact List.mem_map.2 ⟨(month, balances), hmem, rfl⟩
  · intro nb hnb
    have hkey := settleLoop_settles
      (sortDesc (balances.filter (fun e => 0 < e.2)))
      (sortDesc ((balances.filter (fun e => e.2 < 0)).map (fun nb => (nb.1, -nb.2))))
      (creditors_pos balances) (debtors_pos balances)
      (sorted_sums_eq balances hsum) nb.1
    have hcs : amtOf (sortDesc (balances.filter (fun e => 0 < e.2))) nb.1
        = if 0 < nb.2 then nb.2 else 0 := by
      rw [amtOf_perm (sortDesc_perm _)]
      exact amtOf_creditors hnd hnb
    have hds : amtOf (sortDesc ((balances.filter (fun e => e.2 < 0)).map
        (fun nb => (nb.1, -nb.2)))) nb.1 = if nb.2 < 0 then -nb.2 else 0 := by
      rw [amtOf_perm (sortDesc_perm _)]
      exact amtOf_debtors hnd hnb
    rw [hcs, hds] at hkey
    show nb.2 + paidBy (settleLoop _ _) nb.1 - receivedBy (settleLoop _ _) nb.1 = 0
    rcases lt_trichotomy nb.2 0 with h | h | h
    · rw [if_pos h, if_neg (by linarith)] at hkey
      linarith
    · rw [if_neg (by rw [h]; exact lt_irrefl 0), if_neg (by rw [h]; exact lt_irrefl 0)] at hkey
      linarith
    · rw [if_neg (by linarith), if_pos h] at hkey
      linarith

theorem debtor_name_mem {balances : List (String × ℚ)} {n : String}
    (h : n ∈ ((balances.filter (fun e => e.2 < 0)).map (fun nb => (nb.1, -nb.2))).map
      Prod.fst) :
    ∃ e ∈ balances, e.2 < 0 ∧ e.1 = n := by
  rcases List.mem_map.1 h with ⟨f, hf, rfl⟩
  rcases List.mem_map.1 hf with ⟨e, he, rfl⟩
  rcases List.mem_filter.1 he with ⟨he', hneg⟩
  exact ⟨e, he', by simpa using hneg, rfl⟩

theorem creditor_name_mem {balances : List (String × ℚ)} {n : String}
    (h : n ∈ (balances.filter (fun e => 0 < e.2)).map Prod.fst) :
    ∃ e ∈ balances, 0 < e.2 ∧ e.1 = n := by
  rcases List.mem_map.1 h with ⟨e, he, rfl⟩
  rcases List.mem_filter.1 he with ⟨he', hpos⟩
  exact ⟨e, he', by simpa using hpos, rfl⟩

/-- **C2**: every settlement emitted by the per-month settlement computation
has a strictly positive amount, names two distinct participants both present
in the input balance map, and never names a zero-balance participant. -/
theorem C2_settlement_wellformed (balances : List (String × ℚ))
    (hnd : (balances.map Prod.fst).Nodup) :
    ∀ s ∈ calculate_settlements_month balances,
      0 < s.2.2 ∧ s.1 ≠ s.2.1 ∧
      s.1 ∈ balances.map Prod.fst ∧ s.2.1 ∈ balances.map Prod.fst ∧
      ∀ nb ∈ balances, nb.2 = 0 → s.1 ≠ nb.1 ∧ s.2.1 ≠ nb.1 := by
  intro s hs
  have hpos := settleLoop_pos _ _ (creditors_pos balances) (debtors_pos balances) s hs
  have hnames := settleLoop_names _ _ s hs
  have hdeb : s.1 ∈ ((balances.filter (fun e => e.2 < 0)).map
      (fun nb => (nb.1, -nb.2))).map Prod.fst :=
    (((sortDesc_perm _).map Prod.fst).mem_iff).1 hnames.1
  have hcred : s.2.1 ∈ (balances.filter (fun e => 0 < e.2)).map Prod.fst :=
    (((sortDesc_perm _).map Prod.fst).mem_iff).1 hnames.2
  rcases debtor_name_mem hdeb with ⟨e, he, heneg, hen⟩
  rcases creditor_name_mem hcred with ⟨f, hf, hfpos, hfn⟩
  refine ⟨hpos, ?_, ?_, ?_, ?_⟩
  · intro hEq
    have : e = f := eq_of_nodup_keys hnd he hf (by rw [hen, hfn, hEq])
    subst this
    linarith
  · rw [← hen]; exact List.mem_map_of_mem Prod.fst he
  · rw [← hfn]; exact List.mem_map_of_mem Prod.fst hf
  · intro nb hnb hzero
    constructor
    · intro hEq
      have : e = nb := eq_of_nodup_keys hnd he hnb (by rw [hen, hEq])
      subst this
      linarith
    · intro hEq
      have : f = nb := eq_of_nodup_keys hnd hf hnb (by rw [hfn, hEq])
      subst this
      linarith

/-- The balance map of the minimality counterexample. -/
def c3Balances : List (String × ℚ) :=
  [("A", 6), ("B", 5), ("C", -5), ("D", -4), ("E", -2)]

/-- A hand-picked alternative transfer list for `c3Balances`, strictly shorter
than the greedy output. -/
def c3AltTransfers : List (String × String × ℚ) :=
  [("C", "B", 5), ("D", "A", 4), ("E", "A", 2)]

theorem c3_greedy_eval : calculate_settlements_month c3Balances
    = [("C", "A", 5), ("D", "A", 1), ("D", "B", 3), ("E", "B", 2)] := by
  simp only [calculate_settlements_month, c3Balances]
  norm_num [sortDesc, insertDesc, settleLoop_cons_cons, settleLoop_nil_right,
    settleLoop_nil_left, min_def]

/-- **C3** (counterexample): on the zero-sum balance map `c3Balances` with
distinct names, the greedy algorithm emits 4 transfers, yet the 3-transfer
list `c3AltTransfers` (all amounts positive) also zeroes every balance, so
the emitted list is not of minimal size. -/
theorem C3_counterexample_shorter_settlement :
    ((c3Balances.map (fun e => e.2)).sum = 0) ∧
    (c3Balances.map Prod.fst).Nodup ∧
    (c3AltTransfers.all (fun s => decide (0 < s.2.2))) = true ∧
    (c3Balances.all (fun nb =>
      decide (nb.2 + paidBy c3AltTransfers nb.1
        - receivedBy c3AltTransfers nb.1 = 0))) = true ∧
    c3AltTransfers.length < (calculate_settlements_month c3Balances).length := by
  refine ⟨by norm_num [c3Balances], by simp [c3Balances], by decide,
    by (simp [c3Balances, c3AltTransfers, paidBy, receivedBy]; norm_num), ?_⟩
  rw [c3_greedy_eval]
  norm_num [c3AltTransfers]

/-- **C3** (amended): given a zero-sum balance map with at least one nonzero
balance, the number of transfers emitted by the greedy per-month settlement is
at most `(number of creditors) + (number of debtors) - 1`; minimality itself
does not hold (see the counterexample). -/
theorem C3_amended_transfer_count_bound (balances : List (String × ℚ))
    (hsum : (balances.map (fun e => e.2)).sum = 0)
    (hex : ∃ nb ∈ balances, nb.2 ≠ 0) :
    (calculate_settlements_month balances).length + 1
      ≤ (balances.filter (fun e => 0 < e.2)).length
        + (balances.filter (fun e => e.2 < 0)).length := by
  have hsumeq := creditors_debtors_sum balances hsum
  have hposc : ∀ e ∈ balances.filter (fun e => 0 < e.2), 0 < e.2 := by
    intro e he
    simpa using (List.mem_filter.1 he).2
  have hposd : ∀ e ∈ (balances.filter (fun e => e.2 < 0)).map (fun nb => (nb.1, -nb.2)),
      0 < e.2 := by
    intro e he
    rcases List.mem_map.1 he with ⟨f, hf, rfl⟩
    have := (List.mem_filter.1 hf).2
    simp only [decide_eq_true_eq] at this
    simpa using this
  have hcne : balances.filter (fun e => 0 < e.2) ≠ [] := by
    intro hnil
    have hdnil : (balances.filter (fun e => e.2 < 0)).map (fun nb => (nb.1, -nb.2)) = [] := by
      apply eq_nil_of_pos_of_sum_eq_zero _ hposd
      rw [← hsumeq, hnil]
      rfl
    rcases hex with ⟨nb, hnb, hnz⟩
    rcases lt_trichotomy nb.2 0 with h | h | h
    · have : nb ∈ (balances.filter (fun e => e.2 < 0)) :=
        List.mem_filter.2 ⟨hnb, by simpa using h⟩
      rw [List.map_eq_nil_iff] at hdnil
      rw [hdnil] at this
      exact absurd this (List.not_mem_nil nb)
    · exact hnz h
    · have : nb ∈ balances.filter (fun e => 0 < e.2) :=
        List.mem_filter.2 ⟨hnb, by simpa using h⟩
      rw [hnil] at this
      exact absurd this (List.not_mem_nil nb)
  have hdne : (balances.filter (fun e => e.2 < 0)).map (fun nb => (nb.1, -nb.2)) ≠ [] := by
    intro hnil
    have hcnil : balances.filter (fun e => 0 < e.2) = [] := by
      apply eq_nil_of_pos_of_sum_eq_zero _ hposc
      rw [hsumeq, hnil]
      rfl
    exact hcne hcnil
  have hlen := settleLoop_length
    (sortDesc (balances.filter (fun e => 0 < e.2)))
    (sortDesc ((balances.filter (fun e => e.2 < 0)).map (fun nb => (nb.1, -nb.2))))
    (creditors_pos balances) (debtors_pos balances) (sorted_sums_eq balances hsum)
    (by
      intro h
      apply hcne
      have hp := sortDesc_perm (balances.filter (fun e => 0 < e.2))
      rw [h] at hp
      exact hp.symm.eq_nil)
    (by
      intro h
      apply hdne
      have hp := sortDesc_perm ((balances.filter (fun e => e.2 < 0)).map
        (fun nb => (nb.1, -nb.2)))
      rw [h] at hp
      exact hp.symm.eq_nil)
  have hl1 : (sortDesc (balances.filter (fun e => 0 < e.2))).length
      = (balances.filter (fun e => 0 < e.2)).length :=
    (sortDesc_perm _).length_eq
  have hl2 : (sortDesc ((balances.filter (fun e => e.2 < 0)).map
      (fun nb => (nb.1, -nb.2)))).length
      = (balances.filter (fun e => e.2 < 0)).length := by
    rw [(sortDesc_perm _).length_eq, List.length_map]
  rw [hl1, hl2] at hlen
  exact hlen

/-- **C9**: the greedy loop terminates — the loop guard fails exactly when a
list empties (and then nothing more is emitted), and every iteration removes
the two popped parties and re-inserts at most one, so the combined size of the
creditor and debtor lists strictly decreases (by one or two). -/
theorem C9_loop_terminates (cs ds : List (String × ℚ)) :
    ((cs = [] ∨ ds = []) → settleIter cs ds = none ∧ settleLoop cs ds = []) ∧
    (∀ s cs' ds', settleIter cs ds = some (s, cs', ds') →
      cs'.length + ds'.length + 1 ≤ cs.length + ds.length ∧
      cs.length + ds.length ≤ cs'.length + ds'.length + 2 ∧
      settleLoop cs ds = s :: settleLoop cs' ds') := by
  constructor
  · rintro (rfl | rfl)
    · refine ⟨?_, settleLoop_nil_left ds⟩
      cases ds <;> rfl
    · refine ⟨?_, settleLoop_nil_right cs⟩
      cases cs <;> rfl
  · intro s cs' ds' hstep
    match cs, ds with
    | [], [] => simp [settleIter] at hstep
    | [], d :: ds => simp [settleIter] at hstep
    | c :: cs, [] => simp [settleIter] at hstep
    | (cn, cb) :: cs, (dn, db) :: ds =>
      rw [settleLoop_cons_cons]
      by_cases h1 : db < cb
      · simp only [settleIter, if_pos h1, Option.some.injEq, Prod.mk.injEq] at hstep
        obtain ⟨rfl, rfl, rfl⟩ := hstep
        refine ⟨by simp; omega, by simp; omega, ?_⟩
        rw [if_pos h1]
      · by_cases h2 : cb < db
        · simp only [settleIter, if_neg h1, if_pos h2, Option.some.injEq,
            Prod.mk.injEq] at hstep
          obtain ⟨rfl, rfl, rfl⟩ := hstep
          refine ⟨by simp; omega, by simp; omega, ?_⟩
          rw [if_neg h1, if_pos h2]
        · simp only [settleIter, if_neg h1, if_neg h2, Option.some.injEq,
            Prod.mk.injEq] at hstep
          obtain ⟨rfl, rfl, rfl⟩ := hstep
          refine ⟨by simp; omega, by simp; omega, ?_⟩
          rw [if_neg h1, if_neg h2]

/-! ### Monthly grouping: the dict of buckets -/

theorem bucketGet_map_ne (m : List (String × List Expense)) (k' k : String) (e : Expense)
    (h : k' ≠ k) :
    bucketGet (m.map (fun kv => if kv.1 = k' then (kv.1, kv.2 ++ [e]) else kv)) k
      = bucketGet m k := by
  induction m with
  | nil => rfl
  | cons kv rest ih =>
    by_cases hkv : kv.1 = k'
    · rw [List.map_cons, if_pos hkv]
      have hne : kv.1 ≠ k := by rw [hkv]; exact h
      simp [bucketGet, hne, ih]
    · rw [List.map_cons, if_neg hkv]
      by_cases hk : kv.1 = k <;> simp [bucketGet, hk, ih]

theorem addToBucket_cons_ne (kv : String × List Expense)
    (rest : List (String × List Expense)) (k' : String) (e : Expense) (h : kv.1 ≠ k') :
    addToBucket (kv :: rest) k' e = kv :: addToBucket rest k' e := by
  by_cases hany : rest.any (fun x => x.1 = k')
  · simp [addToBucket, hany, h]
  · simp [addToBucket, hany, h]

theorem bucketGet_addToBucket (m : List (String × List Expense)) (k' k : String)
    (e : Expense) :
    bucketGet (addToBucket m k' e) k
      = bucketGet m k ++ (if k' = k then [e] else []) := by
  induction m with
  | nil => by_cases h : k' = k <;> simp [addToBucket, bucketGet, h, Ne.symm]
  | cons kv rest ih =>
    by_cases hkv : kv.1 = k'
    · have hany : (kv :: rest).any (fun x => x.1 = k') = true := by simp [hkv]
      rw [addToBucket, if_pos hany, List.map_cons, if_pos hkv]
      by_cases hk : kv.1 = k
      · have hk' : k' = k := by rw [← hkv, hk]
        simp [bucketGet, hk, hk']
      · have hk' : k' ≠ k := by rw [← hkv]; exact hk
        have hmap := bucketGet_map_ne rest k' k e hk'
        simp [bucketGet, hk, hk', hmap]
    · rw [addToBucket_cons_ne kv rest k' e hkv]
      by_cases hk : kv.1 = k
      · have hk' : k' ≠ k := by
          intro hEq
          exact hkv (by rw [hEq, hk])
        simp [bucketGet, hk, hk']
      · simp [bucketGet, hk, ih]

theorem bucketGet_foldl_expenses (es : List Expense) (m : List (String × List Expense))
    (k : String) :
    bucketGet (es.foldl (fun m e => addToBucket m (monthKey e.expense_date) e) m) k
      = bucketGet m k ++ es.filter (fun e => monthKey e.expense_date = k) := by
  induction es generalizing m with
  | nil => simp
  | cons e es ih =>
    rw [List.foldl_cons, ih, bucketGet_addToBucket]
    by_cases h : monthKey e.expense_date = k
    · rw [List.filter_cons_of_pos (by simpa using h), if_pos h]
      simp
    · rw [List.filter_cons_of_neg (by simpa using h), if_neg h]
      simp

theorem bucketGet_foldl_persons (ps : List Person) (m : List (String × List Expense))
    (k : String) :
    bucketGet (ps.foldl (fun m person =>
        person.expenses.foldl (fun m e => addToBucket m (monthKey e.expense_date) e) m) m) k
      = bucketGet m k
        ++ ((ps.map Person.expenses).flatten).filter (fun e => monthKey e.expense_date = k) := by
  induction ps generalizing m with
  | nil => simp
  | cons p ps ih =>
    rw [List.foldl_cons, ih, bucketGet_foldl_expenses]
    simp [List.filter_append]

theorem bucketGet_expenses_by_month (persons : List Person) (k : String) :
    bucketGet (get_expenses_by_month persons) k
      = ((persons.map Person.expenses).flatten).filter
          (fun e => monthKey e.expense_date = k) := by
  have h := bucketGet_foldl_persons persons [] k
  rw [get_expenses_by_month, h]
  rfl

theorem keys_addToBucket_of_any (m : List (String × List Expense)) (k : String) (e : Expense)
    (hany : m.any (fun kv => kv.1 = k) = true) :
    (addToBucket m k e).map Prod.fst = m.map Prod.fst := by
  rw [addToBucket, if_pos hany, List.map_map]
  apply List.map_congr_left
  intro kv _
  by_cases h : kv.1 = k <;> simp [h]

theorem keys_nodup_addToBucket (m : List (String × List Expense)) (k : String) (e : Expense)
    (h : (m.map Prod.fst).Nodup) : ((addToBucket m k e).map Prod.fst).Nodup := by
  by_cases hany : m.any (fun kv => kv.1 = k) = true
  · rw [keys_addToBucket_of_any m k e hany]
    exact h
  · have hk : k ∉ m.map Prod.fst := by
      intro hmem
      rcases List.mem_map.1 hmem with ⟨kv, hkv, hfst⟩
      exact hany (List.any_eq_true.2 ⟨kv, hkv, by simp [hfst]⟩)
    rw [addToBucket, if_neg hany, List.map_append]
    simp only [List.map_cons, List.map_nil]
    rw [List.nodup_append]
    refine ⟨h, List.nodup_singleton k, ?_⟩
    intro a ha hamem
    rw [List.mem_singleton] at hamem
    rw [hamem] at ha
    exact hk ha

theorem keys_nodup_foldl_expenses (es : List Expense) (m : List (String × List Expense))
    (h : (m.map Prod.fst).Nodup) :
    (((es.foldl (fun m e => addToBucket m (monthKey e.expense_date) e) m)).map
      Prod.fst).Nodup := by
  induction es generalizing m with
  | nil => exact h
  | cons e es ih => exact ih _ (keys_nodup_addToBucket _ _ _ h)

theorem keys_nodup_expenses_by_month (persons : List Person) :
    ((get_expenses_by_month persons).map Prod.fst).Nodup := by
  rw [get_expenses_by_month]
  have : ∀ (ps : List Person) (m : List (String × List Expense)),
      (m.map Prod.fst).Nodup →
      ((ps.foldl (fun m person =>
        person.expenses.foldl (fun m e => addToBucket m (monthKey e.expense_date) e) m) m).map
        Prod.fst).Nodup := by
    intro ps
    induction ps with
    | nil => intro m h; exact h
    | cons p ps ih =>
      intro m h
      exact ih _ (keys_nodup_foldl_expenses _ _ h)
  exact this persons [] List.nodup_nil

theorem bucketGet_of_mem {m : List (String × List Expense)}
    (hnd : (m.map Prod.fst).Nodup) {k : String} {v : List Expense}
    (hmem : (k, v) ∈ m) : bucketGet m k = v := by
  induction m with
  | nil => exact absurd hmem (List.not_mem_nil _)
  | cons kv rest ih =>
    simp only [List.map_cons, List.nodup_cons] at hnd
    rcases List.mem_cons.1 hmem with heq | hmem'
    · rw [← heq]
      simp [bucketGet]
    · have hkmem : k ∈ rest.map Prod.fst := by
        have : (k, v).1 ∈ rest.map Prod.fst := List.mem_map_of_mem Prod.fst hmem'
        exact this
      have hne : kv.1 ≠ k := by
        intro hEq
        rw [← hEq] at hkmem
        exact hnd.1 hkmem
      simp [bucketGet, hne, ih hnd.2 hmem']

/-- **C8**: monthly grouping buckets every expense under the key
"{uppercase 3-letter month} {year}" of its date, with bucket contents in
participant iteration order then per-participant insertion order (i.e. the
bucket for key `k` is exactly the filter of the participant-order flattening);
dates 2024-03-15 and 2024-03-01 share the key "MAR 2024" while 2024-04-01 gets
the distinct key "APR 2024". -/
theorem C8_month_grouping :
    (∀ (persons : List Person) (k : String),
      bucketGet (get_expenses_by_month persons) k
        = ((persons.map Person.expenses).flatten).filter
            (fun e => monthKey e.expense_date = k)) ∧
    monthKey ⟨2024, 3, 15⟩ = "MAR 2024" ∧
    monthKey ⟨2024, 3, 1⟩ = "MAR 2024" ∧
    monthKey ⟨2024, 4, 1⟩ = "APR 2024" ∧
    ("APR 2024" : String) ≠ "MAR 2024" :=
  ⟨bucketGet_expenses_by_month, rfl, rfl, rfl, by decide⟩

/-! ### Totals: claims C4 and C5 -/

theorem list_sum_map_sub (l : List Person) (f g : Person → ℚ) :
    (l.map (fun x => f x - g x)).sum = (l.map f).sum - (l.map g).sum := by
  induction l with
  | nil => simp
  | cons x l ih =>
    simp only [List.map_cons, List.sum_cons, ih]
    ring

theorem weight_sum_pos (persons : List Person) (h : persons ≠ []) :
    0 < (persons.map personWeight).sum := by
  apply List.sum_pos
  · intro x hx
    rcases List.mem_map.1 hx with ⟨p, _, rfl⟩
    by_cases hp : p.pays_for_two <;> simp [personWeight, hp]
  · simpa using h

theorem sum_total_paid (persons : List Person) (k : String) :
    (persons.map (fun person =>
      ((person.expenses.filter (fun e => monthKey e.expense_date = k)).map
        (fun e => e.value)).sum)).sum
      = ((((persons.map Person.expenses).flatten).filter
          (fun e => monthKey e.expense_date = k)).map (fun e => e.value)).sum := by
  induction persons with
  | nil => simp
  | cons p ps ih =>
    simp only [List.map_cons, List.sum_cons, List.flatten_cons, List.filter_append,
      List.map_append, List.sum_append, ih]

theorem monthTotals_should_pay_sum (persons : List Person) (month : String)
    (es : List Expense) (hw : (persons.map personWeight).sum ≠ 0) :
    ((monthTotals persons month es).map (fun t => t.2.2.1)).sum
      = (es.map (fun e => e.value)).sum := by
  unfold monthTotals
  rw [List.map_map]
  show (persons.map (fun person =>
      (es.map (fun e => e.value)).sum / (persons.map personWeight).sum
        * personWeight person)).sum = (es.map (fun e => e.value)).sum
  rw [List.sum_map_mul_left, div_mul_cancel₀ _ hw]

theorem monthTotals_diff_sum (persons : List Person) (month : String)
    (es : List Expense) (hw : (persons.map personWeight).sum ≠ 0) :
    ((monthTotals persons month es).map (fun t => t.2.2.2)).sum
      = (persons.map (fun person =>
          ((person.expenses.filter (fun e => monthKey e.expense_date = month)).map
            (fun e => e.value)).sum)).sum
        - (es.map (fun e => e.value)).sum := by
  unfold monthTotals
  rw [List.map_map]
  show (persons.map (fun person =>
      ((person.expenses.filter (fun e => monthKey e.expense_date = month)).map
        (fun e => e.value)).sum
      - (es.map (fun e => e.value)).sum / (persons.map personWeight).sum
        * personWeight person)).sum
    = (persons.map (fun person =>
        ((person.expenses.filter (fun e => monthKey e.expense_date = month)).map
          (fun e => e.value)).sum)).sum
      - (es.map (fun e => e.value)).sum
  rw [list_sum_map_sub, List.sum_map_mul_left, div_mul_cancel₀ _ hw]

/-- **C4**: for every month produced by `calculate_totals`, the sum of
`should_pay` over all participants equals that month's `total_expenses`
exactly, and the sum of `difference` is exactly zero; the weight denominator
is summed over all participants, including those with no expenses that month
(visible in `monthTotals`, which maps over the whole participant list). -/
theorem C4_split_is_exact (persons : List Person)
    (tbm : List (String × List (String × ℚ × ℚ × ℚ)))
    (bbm : List (String × List (String × ℚ)))
    (hok : calculate_totals persons = Except.ok (tbm, bbm)) :
    ∀ month rows, (month, rows) ∈ tbm →
      (rows.map (fun t => t.2.2.1)).sum
        = ((bucketGet (get_expenses_by_month persons) month).map (fun e => e.value)).sum ∧
      (rows.map (fun t => t.2.2.2)).sum = 0 := by
  have hne : persons ≠ [] := by
    intro h
    rw [calculate_totals, h] at hok
    simp at hok
  rw [calculate_totals, if_neg (by simpa using hne)] at hok
  injection hok with h1
  have htbm : tbm = (get_expenses_by_month persons).map
      (fun me => (me.1, monthTotals persons me.1 me.2)) := (congrArg Prod.fst h1).symm
  intro month rows hmem
  rw [htbm] at hmem
  rcases List.mem_map.1 hmem with ⟨me, hme, hpair⟩
  have hmo : me.1 = month := congrArg Prod.fst hpair
  have hrows : rows = monthTotals persons month me.2 := by
    rw [← hmo]
    exact (congrArg Prod.snd hpair).symm
  have hbucket : bucketGet (get_expenses_by_month persons) month = me.2 := by
    apply bucketGet_of_mem (keys_nodup_expenses_by_month persons)
    rw [← hmo]
    exact hme
  subst hrows
  rw [hbucket]
  have hwne : (persons.map personWeight).sum ≠ 0 := ne_of_gt (weight_sum_pos persons hne)
  refine ⟨monthTotals_should_pay_sum persons month me.2 hwne, ?_⟩
  rw [monthTotals_diff_sum persons month me.2 hwne, sum_total_paid,
    ← bucketGet_expenses_by_month persons month, hbucket, sub_self]

/-- **C5**: `calculate_totals` fails with the empty-ledger domain error exactly
when the participant collection is empty; a non-empty collection with no
expenses at all succeeds and yields empty per-month results. -/
theorem C5_empty_ledger_error (persons : List Person) :
    ((∃ msg, calculate_totals persons = Except.error msg) ↔ persons = []) ∧
    (persons ≠ [] → (∀ p ∈ persons, p.expenses = []) →
      calculate_totals persons = Except.ok ([], [])) := by
  constructor
  · constructor
    · rintro ⟨msg, hmsg⟩
      by_contra hne
      rw [calculate_totals, if_neg (by simpa using hne)] at hmsg
      exact Except.noConfusion hmsg
    · rintro rfl
      exact ⟨"No persons available to calculate totals.", rfl⟩
  · intro hne hempty
    rw [calculate_totals, if_neg (by simpa using hne)]
    have hebm : get_expenses_by_month persons = [] := by
      rw [get_expenses_by_month]
      have : ∀ (ps : List Person), (∀ p ∈ ps, p.expenses = []) →
          ∀ (m : List (String × List Expense)),
          ps.foldl (fun m person =>
            person.expenses.foldl (fun m e => addToBucket m (monthKey e.expense_date) e) m) m
            = m := by
        intro ps hps
        induction ps with
        | nil => intro m; rfl
        | cons p ps ih =>
          intro m
          rw [List.foldl_cons, hps p (List.mem_cons_self p ps)]
          exact ih (fun q hq => hps q (List.mem_cons_of_mem p hq)) m
      exact this persons hempty []
    rw [hebm]
    rfl

/-- **C6**: `add_person` fails with the duplicate-name error precisely when a
participant with the exact same name already exists, leaving the collection
unchanged; otherwise it appends a fresh participant with no expenses. -/
theorem C6_duplicate_name (persons : List Person) (name : String) (pft : Bool) :
    ((∃ p ∈ persons, p.name = name) →
      add_person persons name pft
        = (Except.error ("Person " ++ name ++ " already exists."), persons)) ∧
    ((∀ p ∈ persons, p.name ≠ name) →
      add_person persons name pft = (Except.ok (), persons ++ [⟨name, pft, []⟩])) := by
  constructor
  · rintro ⟨p, hp, hname⟩
    rw [add_person, if_pos (List.any_eq_true.2 ⟨p, hp, by simp [hname]⟩)]
  · intro h
    rw [add_person, if_neg]
    intro hany
    rcases List.any_eq_true.1 hany with ⟨p, hp, hname⟩
    exact h p hp (by simpa using hname)

/-- **C7**: `add_expense` with an unknown participant name is a silent no-op;
with a known name it appends the expense to the first participant carrying
that name and leaves every other participant untouched. -/
theorem C7_add_expense_resolution (persons : List Person)
    (pname inv descr : String) (v : ℚ) (d : Date) :
    ((∀ p ∈ persons, p.name ≠ pname) →
      add_expense persons pname inv descr v d = persons) ∧
    (∀ pre q post, persons = pre ++ q :: post → (∀ p ∈ pre, p.name ≠ pname) →
      q.name = pname →
      add_expense persons pname inv descr v d
        = pre ++ q.addExpense ⟨inv, descr, v, d⟩ :: post) := by
  constructor
  · intro h
    induction persons with
    | nil => rfl
    | cons p ps ih =>
      rw [add_expense, if_neg (h p (List.mem_cons_self p ps))]
      rw [ih (fun q hq => h q (List.mem_cons_of_mem p hq))]
  · intro pre q post hsplit hpre hq
    subst hsplit
    induction pre with
    | nil =>
      simp only [List.nil_append]
      rw [add_expense, if_pos hq]
    | cons r pre ih =>
      simp only [List.cons_append]
      rw [add_expense, if_neg (hpre r (List.mem_cons_self r pre))]
      rw [ih (fun p hp => hpre p (List.mem_cons_of_mem r hp))]

/-- **C10**: `delete_person` removes exactly the participants with the given
name (their expenses disappearing with them), preserves every other
participant with multiplicity and order, and is a silent no-op when no
participant has the name. -/
theorem C10_delete_person (persons : List Person) (name : String) :
    List.Sublist (delete_person persons name) persons ∧
    (∀ p ∈ delete_person persons name, p.name ≠ name) ∧
    (∀ p : Person, p.name ≠ name →
      (delete_person persons name).count p = persons.count p) ∧
    ((∀ p ∈ persons, p.name ≠ name) → delete_person persons name = persons) := by
  refine ⟨List.filter_sublist persons, ?_, ?_, ?_⟩
  · intro p hp
    have := (List.mem_filter.1 hp).2
    simpa using this
  · intro p hp
    exact List.count_filter (by simpa using hp)
  · intro h
    apply List.filter_eq_self.2
    intro p hp
    simpa using h p hp

/-! ### Witnesses: concrete instantiations of the claim theorems -/

/-- A concrete two-person ledger: Alice (weight 1) paid 90 in March 2024,
Bob (weight 2) paid nothing. -/
def wP1 : List Person :=
  [⟨"Alice", false, [⟨"i1", "groceries", 90, ⟨2024, 3, 15⟩⟩]⟩, ⟨"Bob", true, []⟩]

theorem wP1_totals_eval : calculate_totals wP1
    = Except.ok ([("MAR 2024", [("Alice", 90, 30, 60), ("Bob", 0, 60, -60)])],
        [("MAR 2024", [("Alice", 60), ("Bob", -60)])]) := by
  norm_num [wP1, calculate_totals, get_expenses_by_month, addToBucket, monthKey,
    monthAbbrevUpper, monthTotals, monthBalances, personWeight, bucketGet]
  rfl

theorem small_settlements_eval :
    calculate_settlements_month [("A", (2:ℚ)), ("B", -2)] = [("B", "A", 2)] := by
  simp only [calculate_settlements_month]
  norm_num [sortDesc, insertDesc, settleLoop_cons_cons, settleLoop_nil_right,
    settleLoop_nil_left, min_def]

theorem C1_witness :
    (2:ℚ) + paidBy (calculate_settlements_month [("A", (2:ℚ)), ("B", -2)]) "A"
      - receivedBy (calculate_settlements_month [("A", (2:ℚ)), ("B", -2)]) "A" = 0 :=
  (C1_settlements_zero_all_balances [("JAN 2024", [("A", (2:ℚ)), ("B", -2)])]
      "JAN 2024" [("A", (2:ℚ)), ("B", -2)] (List.mem_singleton.2 rfl) (by simp)
      (by simp) (by norm_num)).2 ("A", (2:ℚ)) (List.mem_cons_self _ _)

theorem C2_witness :
    0 < (2:ℚ) ∧ ("B" : String) ≠ "A" ∧
      "B" ∈ ([("A", (2:ℚ)), ("B", -2)]).map Prod.fst ∧
      "A" ∈ ([("A", (2:ℚ)), ("B", -2)]).map Prod.fst := by
  have h := C2_settlement_wellformed [("A", (2:ℚ)), ("B", -2)] (by simp) ("B", "A", 2)
    (by rw [small_settlements_eval]; exact List.mem_cons_self _ _)
  exact ⟨h.1, h.2.1, h.2.2.1, h.2.2.2.1⟩

theorem C3_amended_witness :
    (calculate_settlements_month c3Balances).length + 1
      ≤ (c3Balances.filter (fun e => 0 < e.2)).length
        + (c3Balances.filter (fun e => e.2 < 0)).length :=
  C3_amended_transfer_count_bound c3Balances (by norm_num [c3Balances])
    ⟨("A", 6), by norm_num [c3Balances]⟩

theorem C4_witness :
    (([("Alice", 90, 30, 60), ("Bob", 0, 60, -60)] :
        List (String × ℚ × ℚ × ℚ)).map (fun t => t.2.2.1)).sum
      = ((bucketGet (get_expenses_by_month wP1) "MAR 2024").map
          (fun e => e.value)).sum ∧
    (([("Alice", 90, 30, 60), ("Bob", 0, 60, -60)] :
        List (String × ℚ × ℚ × ℚ)).map (fun t => t.2.2.2)).sum
      = 0 :=
  C4_split_is_exact wP1 _ _ wP1_totals_eval "MAR 2024" _ (List.mem_singleton.2 rfl)

theorem C5_witness : calculate_totals [⟨"A", false, []⟩] = Except.ok ([], []) :=
  (C5_empty_ledger_error [⟨"A", false, []⟩]).2 (by simp) (by simp)

theorem C6_witness :
    add_person [⟨"X", false, []⟩] "X" false
      = (Except.error ("Person " ++ "X" ++ " already exists."), [⟨"X", false, []⟩]) :=
  (C6_duplicate_name [⟨"X", false, []⟩] "X" false).1
    ⟨⟨"X", false, []⟩, List.mem_cons_self _ _, rfl⟩

theorem C7_witness :
    add_expense [⟨"A", false, []⟩] "Z" "inv" "dinner" 5 ⟨2024, 1, 1⟩
      = [⟨"A", false, []⟩] :=
  (C7_add_expense_resolution [⟨"A", false, []⟩] "Z" "inv" "dinner" 5 ⟨2024, 1, 1⟩).1
    (by simp)

theorem C9_witness :
    ([] : List (String × ℚ)).length + ([] : List (String × ℚ)).length + 1
        ≤ [("A", (2:ℚ))].length + [("B", (2:ℚ))].length ∧
      [("A", (2:ℚ))].length + [("B", (2:ℚ))].length
        ≤ ([] : List (String × ℚ)).length + ([] : List (String × ℚ)).length + 2 ∧
      settleLoop [("A", (2:ℚ))] [("B", (2:ℚ))] = ("B", "A", 2) :: settleLoop [] [] :=
  (C9_loop_terminates [("A", (2:ℚ))] [("B", (2:ℚ))]).2 ("B", "A", 2) [] []
    (by norm_num [settleIter])

theorem C10_witness :
    delete_person [⟨"A", false, []⟩] "B" = [⟨"A", false, []⟩] :=
  (C10_delete_person [⟨"A", false, []⟩] "B").2.2.2 (by simp)
